import Mathlib

/-!
Shallow embedding of `mgionetrimmer.py` and proofs about it.

The program discovers `_R1`/`_R2` mated `.fastq.gz` pairs in a directory,
runs cutadapt on each pair under a bounded worker pool, and rewrites the
FASTQ headers of each output file by replacing slashes with spaces.

Strings are modelled as lists of characters and decompressed file contents
as lists of text lines.  Effectful calls (the cutadapt subprocess, the two
header-fix calls of a job, the filesystem steps of `fix_headers_for_file`)
are modelled by explicit outcome parameters and by explicit state sequences.
-/

namespace MGITrimmer

/-- Characters of a string literal. -/
def chars (s : String) : List Char := s.data

/-- One decompressed text line. -/
abbrev Line := List Char

/-- A file or path name. -/
abbrev Name := List Char

/-! ### Python `str.replace`, `str.split` and `os.path.basename` -/

/-- Fuel-indexed worker for `pyReplace`.  The fuel always dominates the length
of the remaining input when called from `pyReplace`, so the zero-fuel
fallback is never reached there. -/
def pyReplaceF (p : Char) (ps rep : List Char) : Nat → List Char → List Char
  | _, [] => []
  | 0, s => s
  | fuel + 1, c :: cs =>
    if (p :: ps).isPrefixOf (c :: cs) then rep ++ pyReplaceF p ps rep fuel (cs.drop ps.length)
    else c :: pyReplaceF p ps rep fuel cs

/-- Embedding of Python `s.replace(pat, rep)` for the nonempty pattern
`p :: ps`: every non-overlapping occurrence is replaced, scanning left to
right. -/
def pyReplace (p : Char) (ps rep s : List Char) : List Char := pyReplaceF p ps rep s.length s

/-- Fuel-indexed worker for `countOcc`. -/
def countOccF (p : Char) (ps : List Char) : Nat → List Char → Nat
  | _, [] => 0
  | 0, _ => 0
  | fuel + 1, c :: cs =>
    if (p :: ps).isPrefixOf (c :: cs) then countOccF p ps fuel (cs.drop ps.length) + 1
    else countOccF p ps fuel cs

/-- Number of non-overlapping occurrences of the pattern `p :: ps`, counted
greedily left to right, exactly as Python `str.replace` finds them. -/
def countOcc (p : Char) (ps s : List Char) : Nat := countOccF p ps s.length s

/-- Replacement of only the first occurrence of the pattern, leaving the rest
of the string verbatim. -/
def replaceOneOcc (p : Char) (ps rep : List Char) : List Char → List Char
  | [] => []
  | c :: cs =>
    if (p :: ps).isPrefixOf (c :: cs) then rep ++ cs.drop ps.length
    else c :: replaceOneOcc p ps rep cs

/-- Embedding of Python `s.split(pat)[0]` for the nonempty pattern `p :: ps`:
the part of `s` before the first occurrence of the pattern, or all of `s`
when there is none. -/
def splitHead (p : Char) (ps : List Char) : List Char → List Char
  | [] => []
  | c :: cs => if (p :: ps).isPrefixOf (c :: cs) then [] else c :: splitHead p ps cs

/-- Embedding of `os.path.basename` for slash-separated paths. -/
def basename (s : Name) : Name := (s.reverse.takeWhile (fun c => c != '/')).reverse

/-! ### Pair discovery (`find_paired_fastqs`, lines 26 to 37) -/

/-- Derived mate-2 name, `r1.replace("_R1", "_R2")` at line 32: every
occurrence of the marker is substituted. -/
def r2Name (r1 : Name) : Name := pyReplace '_' (chars "R1") (chars "_R2") r1

/-- Embedding of the `re.search` call at line 29, whose raw pattern is the
marker `_R1` followed by any characters and then by the literal `.fastq.gz`
anchored at the end of the name.  Directory entries are taken newline-free,
so the dot and the end anchor of the pattern have their plain readings. -/
def matchR1Regex (f : Name) : Bool :=
  (chars ".fastq.gz").isSuffixOf f &&
    (List.range f.length).any
      (fun i => (chars "_R1").isPrefixOf (f.drop i) && decide (i + 12 ≤ f.length))

/-- The candidate list `r1_files` of line 29: matching entries, sorted by
name. -/
def r1Candidates (files : List Name) : List Name :=
  List.insertionSort (fun a b => a ≤ b) (files.filter matchR1Regex)

/-- Embedding of `os.path.join(input_path, f)` for a directory given without
a trailing slash. -/
def pairJoin (dir f : Name) : Name := dir ++ '/' :: f

/-- The candidate loop of lines 31 to 36: a candidate whose derived mate-2
name is present in the listing contributes a pair of joined paths, any other
candidate contributes one warning naming the candidate. -/
def pairLoop (dir : Name) (files : List Name) : List Name → List (Name × Name) × List Name
  | [] => ([], [])
  | r1 :: rest =>
    let acc := pairLoop dir files rest
    if r2Name r1 ∈ files then ((pairJoin dir r1, pairJoin dir (r2Name r1)) :: acc.1, acc.2)
    else (acc.1, r1 :: acc.2)

/-- `find_paired_fastqs`: the produced pairs plus the warned-about lone
candidates. -/
def findPairedFastqs (dir : Name) (files : List Name) : List (Name × Name) × List Name :=
  pairLoop dir files (r1Candidates files)

/-! ### Resource budget (lines 118 to 122) -/

/-- `max_workers` of line 119: the override when it is given and positive,
otherwise the minimum of the pair count and the cpu count. -/
def maxWorkersOf (pairCount totalCpus : Nat) (override : Option Int) : Nat :=
  match override with
  | some v => if 0 < v then v.toNat else min pairCount totalCpus
  | none => min pairCount totalCpus

/-- `per_job_threads` of line 122. -/
def perJobThreadsOf (totalCpus workers : Nat) : Nat := max 1 (totalCpus / workers)

/-! ### The header rewrite (`fix_headers_for_file`, lines 39 to 59) -/

/-- Embedding of `line.replace("/", " ")` at line 47. -/
def replaceSlash (l : Line) : Line := pyReplace '/' [] (chars " ") l

/-- The character map a slash-to-space replacement performs. -/
def slashToSpace (c : Char) : Char := if c = '/' then ' ' else c

/-- Per-line action of the loop body at lines 46 to 49, at 0-based line
index `i`. -/
def fixLine (i : Nat) (l : Line) : Line :=
  if i % 4 == 0 && (chars "@").isPrefixOf l then replaceSlash l else l

/-- The enumerate loop of lines 45 to 49, starting at line index `i`. -/
def fixLinesFrom (i : Nat) : List Line → List Line
  | [] => []
  | l :: rest => fixLine i l :: fixLinesFrom (i + 1) rest

/-- Full text transform of `fix_headers_for_file` on the decompressed line
sequence. -/
def fixLines (ls : List Line) : List Line := fixLinesFrom 0 ls

/-- Every line the rewrite would touch, counting indices from `i`, is already
free of slashes. -/
def headerSlashFreeFrom (i : Nat) : List Line → Bool
  | [] => true
  | l :: rest =>
    (!(i % 4 == 0 && (chars "@").isPrefixOf l) || l.all (fun c => !(c == '/'))) &&
      headerSlashFreeFrom (i + 1) rest

/-! ### Filesystem model of `fix_headers_for_file` -/

/-- Contents, as decompressed line sequences, of the two paths that
`fix_headers_for_file` touches: the original gz path and the temporary fastq
path.  `none` means the path does not exist. -/
structure FixFS where
  orig : Option (List Line)
  temp : Option (List Line)
deriving DecidableEq

/-- Successive content states a streamed line-by-line write of `target` goes
through. -/
def writeStages (target : List Line) : List (List Line) :=
  (List.range (target.length + 1)).map (fun k => target.take k)

/-- The filesystem states an uninterrupted run of `fix_headers_for_file`
passes through, in order: the temporary file is created and written line by
line (lines 44 to 49); then the original path is reopened for compressed
writing with `gzip.open(gz_path, "wb")`, which truncates it, and is rewritten
from the temporary file (lines 51 to 52); finally the temporary file is
removed (lines 53 to 57). -/
def fixHeadersStates (content : List Line) : List FixFS :=
  [⟨some content, none⟩]
    ++ (writeStages (fixLines content)).map (fun t => ⟨some content, some t⟩)
    ++ (writeStages (fixLines content)).map (fun t => ⟨some t, some (fixLines content)⟩)
    ++ [⟨some (fixLines content), none⟩]

/-- Fault points inside the `try` body of `fix_headers_for_file`: the initial
decompressing open fails; a decompression or read error at line `k`; the
reopen of the original for compressed writing fails; an I/O error after `k`
lines of the recompression were written. -/
inductive FixFault
  | openRead
  | readLine (k : Nat)
  | reopenWrite
  | copyWrite (k : Nat)

/-- State of both paths and whether an exception escaped the `try` body of
lines 43 to 52, before the `finally` block runs. -/
def fixHeadersBody (content : List Line) : Option FixFault → FixFS × Bool
  | some FixFault.openRead => (⟨some content, none⟩, true)
  | some (FixFault.readLine k) => (⟨some content, some ((fixLines content).take k)⟩, true)
  | some FixFault.reopenWrite => (⟨some content, some (fixLines content)⟩, true)
  | some (FixFault.copyWrite k) =>
    (⟨some ((fixLines content).take k), some (fixLines content)⟩, true)
  | none => (⟨some (fixLines content), some (fixLines content)⟩, false)

/-- The `finally` block of lines 53 to 57: remove the temporary file when it
exists. -/
def removeTemp (s : FixFS) : FixFS := ⟨s.orig, none⟩

/-- `fix_headers_for_file` under an optional injected fault: final state of
the two paths, and whether an exception propagated to the caller. -/
def fixHeadersRun (content : List Line) (fault : Option FixFault) : FixFS × Bool :=
  (removeTemp (fixHeadersBody content fault).1, (fixHeadersBody content fault).2)

/-! ### The job runner (`run_cutadapt_for_pair`, lines 61 to 97) -/

/-- Outcome of the `subprocess.run` call on the cutadapt command at line 82:
normal zero exit, a `CalledProcessError`, or any other launch exception. -/
inductive ToolOutcome
  | ok
  | exitErr (e : Name)
  | otherErr (e : Name)

/-- Outcome of one `fix_headers_for_file` call as observed by the runner. -/
inductive FixOutcome
  | ok
  | err (e : Name)

/-- The externally determined outcomes one job can observe. -/
structure JobEnv where
  tool : ToolOutcome
  fixR1 : FixOutcome
  fixR2 : FixOutcome

/-- `sample_label = os.path.basename(r1).split("_R1")[0]` at line 66. -/
def sampleLabel (r1 : Name) : Name := splitHead '_' (chars "R1") (basename r1)

/-- Message built at line 85. -/
def erroCutadaptMsg (e : Name) : Name := chars "Erro cutadapt: " ++ e

/-- Message built at line 87. -/
def erroInesperadoMsg (e : Name) : Name := chars "Erro inesperado: " ++ e

/-- Message built at line 95. -/
def erroHeadersMsg (e : Name) : Name := chars "Erro ajustando headers: " ++ e

/-- `run_cutadapt_for_pair` as a function of the outcomes of its three
effectful calls, returning the triple `(sample_label, success, error)`.
The second header fix only runs when the first one succeeded, matching the
shared `try` block of lines 90 to 95. -/
def runCutadaptForPair (r1 r2 : Name) (env : JobEnv) : Name × Bool × Option Name :=
  match env.tool with
  | ToolOutcome.exitErr e => (sampleLabel r1, false, some (erroCutadaptMsg e))
  | ToolOutcome.otherErr e => (sampleLabel r1, false, some (erroInesperadoMsg e))
  | ToolOutcome.ok =>
    match env.fixR1 with
    | FixOutcome.err e => (sampleLabel r1, false, some (erroHeadersMsg e))
    | FixOutcome.ok =>
      match env.fixR2 with
      | FixOutcome.err e => (sampleLabel r1, false, some (erroHeadersMsg e))
      | FixOutcome.ok => (sampleLabel r1, true, none)

/-! ### Scheduler, aggregation and the driver (lines 99 to 139) -/

/-- All submitted jobs run to completion and report a result; job number `i`
observes the environment `env i` (lines 126 to 130). -/
def collectFrom (env : Nat → JobEnv) : Nat → List (Name × Name) → List (Name × Bool × Option Name)
  | _, [] => []
  | i, pr :: rest => runCutadaptForPair pr.1 pr.2 (env i) :: collectFrom env (i + 1) rest

/-- `failures = [r for r in results if not r[1]]` at line 132. -/
def failuresOf (results : List (Name × Bool × Option Name)) : List (Name × Bool × Option Name) :=
  results.filter (fun r => !r.2.1)

/-- Exit code and number of dispatched jobs of `main`, as a function of
whether cutadapt is on the PATH, the input listing, and the per-job
outcomes.  Each `sys.exit(1)` gives code 1; falling through the end of
`main` gives code 0. -/
def mainRun (cutadaptOnPath : Bool) (dir : Name) (files : List Name) (env : Nat → JobEnv) :
    Nat × Nat :=
  if cutadaptOnPath = false then (1, 0)
  else
    let pairs := (findPairedFastqs dir files).1
    if pairs.isEmpty then (1, 0)
    else
      let results := collectFrom env 0 pairs
      if (failuresOf results).isEmpty then (0, pairs.length) else (1, pairs.length)

/-! ### Concrete inputs used by witnesses and counterexamples -/

/-- A four-line FASTQ record whose header contains a slash. -/
def exRecord : List Line := [chars "@r/1", chars "ACGT", chars "+", chars "FFFF"]

/-- An already-normalized two-line content: the header has no slash, and the
slash on the non-header line is out of reach of the rewrite. -/
def exNormalized : List Line := [chars "@r 1", chars "AC/GT"]

/-- A name in which the mate-1 marker occurs twice. -/
def exDouble : Name := chars "A_R1_R1.fastq.gz"

/-- A directory listing with a complete pair. -/
def exFiles : List Name := [chars "S_R1.fastq.gz", chars "S_R2.fastq.gz"]

/-- A job environment in which every effectful call succeeds. -/
def envAllOk : Nat → JobEnv := fun _ => ⟨ToolOutcome.ok, FixOutcome.ok, FixOutcome.ok⟩

/-- Three pairs for the isolation scenario. -/
def exPairs3 : List (Name × Name) :=
  [(chars "A_R1.fastq.gz", chars "A_R2.fastq.gz"),
   (chars "B_R1.fastq.gz", chars "B_R2.fastq.gz"),
   (chars "C_R1.fastq.gz", chars "C_R2.fastq.gz")]

/-- Environment of the isolation scenario: only the middle job fails, with a
cutadapt exit error. -/
def exEnv3 : Nat → JobEnv := fun i =>
  if i = 1 then ⟨ToolOutcome.exitErr (chars "exit 9"), FixOutcome.ok, FixOutcome.ok⟩
  else ⟨ToolOutcome.ok, FixOutcome.ok, FixOutcome.ok⟩

/-! ### Unfolding lemmas for the fueled string functions -/

theorem pyReplaceF_congr (p : Char) (ps rep : List Char) :
    ∀ f g s, s.length ≤ f → s.length ≤ g →
      pyReplaceF p ps rep f s = pyReplaceF p ps rep g s := by
  intro f
  induction f with
  | zero =>
    intro g s hf _
    cases s with
    | nil => cases g <;> rfl
    | cons c cs => simp at hf
  | succ f ih =>
    intro g s hf hg
    cases s with
    | nil => cases g <;> rfl
    | cons c cs =>
      cases g with
      | zero => simp at hg
      | succ g =>
        simp only [pyReplaceF]
        by_cases h : (p :: ps).isPrefixOf (c :: cs)
        · rw [if_pos h, if_pos h, ih g (cs.drop ps.length)]
          · simp only [List.length_drop]
            simp only [List.length_cons] at hf
            omega
          · simp only [List.length_drop]
            simp only [List.length_cons] at hg
            omega
        · rw [if_neg h, if_neg h, ih g cs]
          · simp only [List.length_cons] at hf; omega
          · simp only [List.length_cons] at hg; omega

theorem pyReplace_nil (p : Char) (ps rep : List Char) : pyReplace p ps rep [] = [] := rfl

theorem pyReplace_cons (p : Char) (ps rep : List Char) (c : Char) (cs : List Char) :
    pyReplace p ps rep (c :: cs) =
      if (p :: ps).isPrefixOf (c :: cs) then rep ++ pyReplace p ps rep (cs.drop ps.length)
      else c :: pyReplace p ps rep cs := by
  show pyReplaceF p ps rep (cs.length + 1) (c :: cs) = _
  simp only [pyReplaceF]
  by_cases h : (p :: ps).isPrefixOf (c :: cs)
  · rw [if_pos h, if_pos h]
    have hc := pyReplaceF_congr p ps rep cs.length (cs.drop ps.length).length
      (cs.drop ps.length) (by simp only [List.length_drop]; omega) (Nat.le_refl _)
    rw [hc]
    rfl
  · rw [if_neg h, if_neg h]
    rfl

theorem countOccF_congr (p : Char) (ps : List Char) :
    ∀ f g s, s.length ≤ f → s.length ≤ g → countOccF p ps f s = countOccF p ps g s := by
  intro f
  induction f with
  | zero =>
    intro g s hf _
    cases s with
    | nil => cases g <;> rfl
    | cons c cs => simp at hf
  | succ f ih =>
    intro g s hf hg
    cases s with
    | nil => cases g <;> rfl
    | cons c cs =>
      cases g with
      | zero => simp at hg
      | succ g =>
        simp only [countOccF]
        by_cases h : (p :: ps).isPrefixOf (c :: cs)
        · rw [if_pos h, if_pos h, ih g (cs.drop ps.length)]
          · simp only [List.length_drop]
            simp only [List.length_cons] at hf
            omega
          · simp only [List.length_drop]
            simp only [List.length_cons] at hg
            omega
        · rw [if_neg h, if_neg h, ih g cs]
          · simp only [List.length_cons] at hf; omega
          · simp only [List.length_cons] at hg; omega

theorem countOcc_cons (p : Char) (ps : List Char) (c : Char) (cs : List Char) :
    countOcc p ps (c :: cs) =
      if (p :: ps).isPrefixOf (c :: cs) then countOcc p ps (cs.drop ps.length) + 1
      else countOcc p ps cs := by
  show countOccF p ps (cs.length + 1) (c :: cs) = _
  simp only [countOccF]
  by_cases h : (p :: ps).isPrefixOf (c :: cs)
  · rw [if_pos h, if_pos h]
    have hc := countOccF_congr p ps cs.length (cs.drop ps.length).length
      (cs.drop ps.length) (by simp only [List.length_drop]; omega) (Nat.le_refl _)
    rw [hc]
    rfl
  · rw [if_neg h, if_neg h]
    rfl

/-! ### The candidate pattern: regex search versus contains-and-ends-with -/

theorem patR1_not_in_tail (j : Nat) : ¬ chars "_R1" <+: (chars ".fastq.gz").drop j := by
  intro h
  by_cases hj : j < 9
  · interval_cases j <;> exact absurd h (by decide)
  · rw [List.drop_eq_nil_of_le (by simp [chars]; omega)] at h
    exact absurd (List.prefix_nil.mp h) (by decide)

theorem occ_bound :
    ∀ (i : Nat) (a : List Char),
      chars "_R1" <+: (a ++ chars ".fastq.gz").drop i → i + 3 ≤ a.length := by
  intro i
  induction i with
  | zero =>
    intro a h
    rw [List.drop_zero] at h
    rcases List.prefix_or_prefix_of_prefix h (List.prefix_append a (chars ".fastq.gz"))
      with hpa | hap
    · have := hpa.length_le
      simpa [chars] using this
    · obtain ⟨t, ht⟩ := hap
      obtain ⟨u, hu⟩ := h
      rw [← ht, List.append_assoc] at hu
      have htu : t ++ u = chars ".fastq.gz" := (List.append_right_inj a).mp hu
      have htpre : t <+: chars ".fastq.gz" := ⟨u, htu⟩
      match a, ht with
      | [], ht =>
        have : t = chars "_R1" := by simpa using ht
        subst this
        exact absurd (by simpa using htpre) (patR1_not_in_tail 0)
      | [x], ht =>
        have hx : x = '_' ∧ t = chars "R1" := by
          refine ⟨?_, ?_⟩ <;> [skip; skip] <;>
            · have := ht
              simp [chars] at this
              simp [chars, this]
        obtain ⟨_, ht2⟩ := hx
        subst ht2
        exact absurd htpre (by decide)
      | [x, y], ht =>
        have ht2 : t = chars "1" := by
          have := ht
          simp [chars] at this
          simp [chars, this]
        subst ht2
        exact absurd htpre (by decide)
      | x :: y :: z :: rest, ht =>
        simp only [List.length_cons]
        omega
  | succ i ih =>
    intro a h
    cases a with
    | nil =>
      rw [List.nil_append] at h
      exact absurd h (patR1_not_in_tail (i + 1))
    | cons c a' =>
      rw [List.cons_append, List.drop_succ_cons] at h
      have := ih a' h
      simp only [List.length_cons]
      omega

theorem matchR1_iff (f : Name) :
    matchR1Regex f = true ↔ (chars "_R1" <:+: f ∧ chars ".fastq.gz" <:+ f) := by
  unfold matchR1Regex
  rw [Bool.and_eq_true, List.any_eq_true]
  constructor
  · rintro ⟨hsuf, i, _, hcond⟩
    rw [Bool.and_eq_true] at hcond
    have hpre : chars "_R1" <+: f.drop i := List.isPrefixOf_iff_prefix.mp hcond.1
    have hsuf' : chars ".fastq.gz" <:+ f := List.isSuffixOf_iff_suffix.mp hsuf
    refine ⟨?_, hsuf'⟩
    obtain ⟨u, hu⟩ := hpre
    exact ⟨f.take i, u, by rw [List.append_assoc, hu, List.take_append_drop]⟩
  · rintro ⟨⟨s, t, hst⟩, hsuf⟩
    obtain ⟨a, ha⟩ := hsuf
    have hdrop : f.drop s.length = chars "_R1" ++ t := by
      rw [← hst, List.append_assoc, List.drop_left]
    have hpre : chars "_R1" <+: f.drop s.length := ⟨t, hdrop.symm ▸ rfl⟩
    have hb : s.length + 3 ≤ a.length := by
      apply occ_bound s.length a
      rw [ha]
      exact hpre
    have hflen : f.length = a.length + 9 := by
      rw [← ha]
      simp [chars]
    refine ⟨List.isSuffixOf_iff_suffix.mpr ⟨a, ha⟩, s.length, List.mem_range.mpr (by omega), ?_⟩
    rw [Bool.and_eq_true]
    exact ⟨List.isPrefixOf_iff_prefix.mpr hpre, decide_eq_true (by omega)⟩

theorem pairLoop_eq (dir : Name) (files : List Name) :
    ∀ l, pairLoop dir files l
      = (l.filterMap (fun r1 =>
            if r2Name r1 ∈ files then some (pairJoin dir r1, pairJoin dir (r2Name r1)) else none),
         l.filter (fun r1 => decide (r2Name r1 ∉ files))) := by
  intro l
  induction l with
  | nil => rfl
  | cons r1 rest ih =>
    simp only [pairLoop, ih, List.filterMap_cons, List.filter_cons]
    by_cases h : r2Name r1 ∈ files
    · simp [h]
    · simp [h]

/-- C4: the candidates of `find_paired_fastqs` are exactly the listing
entries that contain the mate-1 marker and end in the compressed extension;
they are processed in sorted name order; a candidate contributes a pair iff
its derived mate-2 name is in the listing and otherwise contributes exactly
one warning; a complete pair yields one pair, a lone mate-1 file yields no
pair and one warning. -/
theorem pair_discovery_characterization (dir : Name) (files : List Name) :
    (∀ f, matchR1Regex f = true ↔ (chars "_R1" <:+: f ∧ chars ".fastq.gz" <:+ f))
    ∧ List.Perm (r1Candidates files) (files.filter matchR1Regex)
    ∧ List.Sorted (fun a b => a ≤ b) (r1Candidates files)
    ∧ (findPairedFastqs dir files).1
        = (r1Candidates files).filterMap (fun r1 =>
            if r2Name r1 ∈ files then some (pairJoin dir r1, pairJoin dir (r2Name r1)) else none)
    ∧ (findPairedFastqs dir files).2
        = (r1Candidates files).filter (fun r1 => decide (r2Name r1 ∉ files))
    ∧ findPairedFastqs (chars "d") exFiles
        = ([(chars "d/S_R1.fastq.gz", chars "d/S_R2.fastq.gz")], [])
    ∧ findPairedFastqs (chars "d") [chars "S_R1.fastq.gz"] = ([], [chars "S_R1.fastq.gz"]) := by
  refine ⟨matchR1_iff, List.perm_insertionSort _ _, List.sorted_insertionSort _ _, ?_, ?_, ?_, ?_⟩
  · exact congrArg Prod.fst (pairLoop_eq dir files (r1Candidates files))
  · exact congrArg Prod.snd (pairLoop_eq dir files (r1Candidates files))
  · decide
  · decide

/-- C3: with at least one pair and one cpu, a positive override fixes the
worker count; otherwise the worker count is the minimum of pair count and
capacity, hence at least one; the per-job share is the floored quotient with
a floor of one; and the two budget examples of the spec hold. -/
theorem resource_budget_policy (pc cap : Nat) (ov : Int)
    (hpc : 1 ≤ pc) (hcap : 1 ≤ cap) (hov : 0 < ov) :
    maxWorkersOf pc cap (some ov) = ov.toNat
    ∧ maxWorkersOf pc cap none = min pc cap
    ∧ 1 ≤ maxWorkersOf pc cap none
    ∧ perJobThreadsOf cap (maxWorkersOf pc cap none) = max 1 (cap / min pc cap)
    ∧ maxWorkersOf 5 4 none = 4 ∧ perJobThreadsOf 4 (maxWorkersOf 5 4 none) = 1
    ∧ maxWorkersOf 2 8 none = 2 ∧ perJobThreadsOf 8 (maxWorkersOf 2 8 none) = 4 := by
  refine ⟨by simp [maxWorkersOf, hov], rfl, ?_, rfl, by decide, by decide, by decide, by decide⟩
  exact le_min hpc hcap

theorem resource_budget_policy_witness :
    maxWorkersOf 5 4 (some 2) = 2
    ∧ maxWorkersOf 5 4 none = 4
    ∧ perJobThreadsOf 4 (maxWorkersOf 5 4 none) = 1 := by
  have h := resource_budget_policy 5 4 2 (by decide) (by decide) (by decide)
  exact ⟨h.1, h.2.2.2.2.1, h.2.2.2.2.2.1⟩

/-- C9: on every return path of `run_cutadapt_for_pair`, the error component
is `none` exactly when the success flag is true. -/
theorem result_triple_invariant (r1 r2 : Name) (env : JobEnv) :
    (runCutadaptForPair r1 r2 env).2.2 = none ↔ (runCutadaptForPair r1 r2 env).2.1 = true := by
  obtain ⟨t, f1, f2⟩ := env
  cases t <;> cases f1 <;> cases f2 <;> simp [runCutadaptForPair]

/-- C5: a tool failure never escapes the runner, which returns a failed
result with a readable message; every submitted job reports its own result
at its own position; in the three-job scenario where only the middle job
fails, the other two report success and the aggregate failure list names
only the middle job, under any completion order. -/
theorem job_isolation :
    (∀ (r1 r2 e : Name) (f1 f2 : FixOutcome),
        runCutadaptForPair r1 r2 ⟨ToolOutcome.exitErr e, f1, f2⟩
          = (sampleLabel r1, false, some (erroCutadaptMsg e))
        ∧ runCutadaptForPair r1 r2 ⟨ToolOutcome.otherErr e, f1, f2⟩
          = (sampleLabel r1, false, some (erroInesperadoMsg e)))
    ∧ (∀ (env : Nat → JobEnv) (i j : Nat) (ps : List (Name × Name)),
        (collectFrom env i ps).get? j
          = (ps.get? j).map (fun pr => runCutadaptForPair pr.1 pr.2 (env (i + j))))
    ∧ collectFrom exEnv3 0 exPairs3
        = [(chars "A", true, none),
           (chars "B", false, some (erroCutadaptMsg (chars "exit 9"))),
           (chars "C", true, none)]
    ∧ (∀ rs, List.Perm (collectFrom exEnv3 0 exPairs3) rs →
        failuresOf rs = [(chars "B", false, some (erroCutadaptMsg (chars "exit 9")))]) := by
  refine ⟨fun r1 r2 e f1 f2 => ⟨rfl, rfl⟩, ?_, by decide, ?_⟩
  · intro env i j ps
    induction ps generalizing i j with
    | nil => simp [collectFrom]
    | cons pr rest ih =>
      cases j with
      | zero => simp [collectFrom]
      | succ j =>
        simp only [collectFrom, List.get?, ih (i + 1) j]
        have : i + 1 + j = i + (j + 1) := by omega
        rw [this]
  · intro rs hperm
    have hfilter := hperm.filter (fun r => !r.2.1)
    have hbase : failuresOf (collectFrom exEnv3 0 exPairs3)
        = [(chars "B", false, some (erroCutadaptMsg (chars "exit 9")))] := by decide
    unfold failuresOf at hbase ⊢
    rw [hbase] at hfilter
    exact List.perm_singleton.mp hfilter.symm

theorem job_isolation_witness :
    failuresOf (collectFrom exEnv3 0 exPairs3)
      = [(chars "B", false, some (erroCutadaptMsg (chars "exit 9")))] :=
  job_isolation.2.2.2 _ (List.Perm.refl _)

/-- C6: the exit code of the driver is zero exactly when cutadapt is on the
PATH, at least one pair was discovered, and every job result succeeded; the
two fatal preconditions exit nonzero with zero jobs dispatched; the exit
code is always zero or one. -/
theorem exit_code_characterization (found : Bool) (dir : Name) (files : List Name)
    (env : Nat → JobEnv) :
    ((mainRun found dir files env).1 = 0 ↔
      (found = true ∧ (findPairedFastqs dir files).1 ≠ []
        ∧ ∀ r ∈ collectFrom env 0 (findPairedFastqs dir files).1, r.2.1 = true))
    ∧ (found = false → mainRun found dir files env = (1, 0))
    ∧ ((findPairedFastqs dir files).1 = [] → (mainRun found dir files env).2 = 0)
    ∧ ((mainRun found dir files env).1 = 0 ∨ (mainRun found dir files env).1 = 1) := by
  cases found with
  | false => simp [mainRun]
  | true =>
    simp only [mainRun, if_neg (by simp : ¬ (true = false))]
    by_cases hp : (findPairedFastqs dir files).1.isEmpty
    · rw [if_pos hp]
      rw [List.isEmpty_iff] at hp
      refine ⟨by simp [hp], ?_, fun _ => rfl, Or.inr rfl⟩
      intro h
      exact Bool.noConfusion h
    · rw [if_neg hp]
      rw [List.isEmpty_iff] at hp
      by_cases hf : (failuresOf (collectFrom env 0 (findPairedFastqs dir files).1)).isEmpty
      · rw [if_pos hf]
        rw [List.isEmpty_iff] at hf
        unfold failuresOf at hf
        rw [List.filter_eq_nil_iff] at hf
        refine ⟨?_, ?_, ?_, Or.inl rfl⟩
        · constructor
          · intro _
            exact ⟨by trivial, hp, fun r hr => by simpa using hf r hr⟩
          · intro _
            rfl
        · intro h
          exact Bool.noConfusion h
        · intro h
          exact absurd h hp
      · rw [if_neg hf]
        rw [List.isEmpty_iff] at hf
        unfold failuresOf at hf
        refine ⟨?_, ?_, ?_, Or.inr rfl⟩
        · constructor
          · intro h
            exact absurd h (by simp)
          · rintro ⟨-, -, hall⟩
            exfalso
            apply hf
            rw [List.filter_eq_nil_iff]
            intro r hr
            simp [hall r hr]
        · intro h
          exact Bool.noConfusion h
        · intro h
          exact absurd h hp

theorem exit_code_characterization_witness :
    (mainRun true (chars "d") exFiles envAllOk).1 = 0 :=
  (exit_code_characterization true (chars "d") exFiles envAllOk).1.mpr
    ⟨rfl, by decide, by decide⟩

/-! ### Linewise facts about the header rewrite -/

theorem nil_isPrefixOf_eq (l : List Char) : List.isPrefixOf [] l = true := by
  cases l <;> rfl

theorem replaceSlash_eq_map (l : Line) : replaceSlash l = l.map slashToSpace := by
  induction l with
  | nil => rfl
  | cons c cs ih =>
    unfold replaceSlash at ih ⊢
    rw [pyReplace_cons]
    by_cases h : c = '/'
    · subst h
      have hp : (('/' :: ([] : List Char)).isPrefixOf ('/' :: cs)) = true := by
        show ('/' == '/' && List.isPrefixOf [] cs) = true
        rw [nil_isPrefixOf_eq, Bool.and_true]
        exact beq_self_eq_true '/'
      rw [if_pos hp]
      simp only [List.length_nil, List.drop_zero, List.map_cons]
      rw [ih]
      rfl
    · have hp : (('/' :: ([] : List Char)).isPrefixOf (c :: cs)) = false := by
        show ('/' == c && List.isPrefixOf [] cs) = false
        have hb : ('/' == c) = false := beq_eq_false_iff_ne.mpr (fun he => h he.symm)
        rw [hb, Bool.false_and]
      rw [if_neg (by rw [hp]; exact Bool.false_ne_true)]
      simp only [List.map_cons]
      rw [ih]
      have hc : slashToSpace c = c := by simp [slashToSpace, h]
      rw [hc]

theorem slashToSpace_idem (c : Char) : slashToSpace (slashToSpace c) = slashToSpace c := by
  by_cases h : c = '/' <;> simp [slashToSpace, h]

theorem headChar_map (l : Line) :
    (chars "@").isPrefixOf (l.map slashToSpace) = (chars "@").isPrefixOf l := by
  cases l with
  | nil => rfl
  | cons c cs =>
    show ('@' == slashToSpace c && List.isPrefixOf [] (cs.map slashToSpace))
        = ('@' == c && List.isPrefixOf [] cs)
    rw [nil_isPrefixOf_eq, nil_isPrefixOf_eq, Bool.and_true, Bool.and_true]
    by_cases h : c = '/'
    · subst h
      decide
    · unfold slashToSpace
      rw [if_neg h]

theorem fixLinesFrom_get? (ls : List Line) :
    ∀ j i, (fixLinesFrom j ls).get? i = (ls.get? i).map (fun l => fixLine (j + i) l) := by
  induction ls with
  | nil => intro j i; simp [fixLinesFrom]
  | cons l rest ih =>
    intro j i
    cases i with
    | zero => simp [fixLinesFrom]
    | succ i =>
      simp only [fixLinesFrom, List.get?, ih (j + 1) i]
      have : j + 1 + i = j + (i + 1) := by omega
      rw [this]

theorem fixLinesFrom_length (ls : List Line) : ∀ j, (fixLinesFrom j ls).length = ls.length := by
  induction ls with
  | nil => intro j; rfl
  | cons l rest ih => intro j; simp [fixLinesFrom, ih]

/-- C2: the rewritten file has the same number of lines; the line at 0-based
index `i` of the output is the image of the input line at `i` under the
per-line action; a line is left byte-identical unless its index is a
multiple of four and it starts with the at sign, in which case exactly its
slashes become spaces, positionwise, and nothing else changes. -/
theorem fix_headers_linewise (ls : List Line) (i : Nat) (l : Line) :
    (fixLines ls).length = ls.length
    ∧ (fixLines ls).get? i = (ls.get? i).map (fun m => fixLine i m)
    ∧ (¬ (i % 4 = 0 ∧ chars "@" <+: l) → fixLine i l = l)
    ∧ (i % 4 = 0 → chars "@" <+: l → fixLine i l = l.map slashToSpace) := by
  refine ⟨fixLinesFrom_length ls 0, by simpa using fixLinesFrom_get? ls 0 i, ?_, ?_⟩
  · intro h
    unfold fixLine
    rw [if_neg]
    intro hc
    rw [Bool.and_eq_true, beq_iff_eq, List.isPrefixOf_iff_prefix] at hc
    exact h hc
  · intro h1 h2
    unfold fixLine
    rw [if_pos, replaceSlash_eq_map]
    rw [Bool.and_eq_true, beq_iff_eq, List.isPrefixOf_iff_prefix]
    exact ⟨h1, h2⟩

theorem fix_headers_linewise_witness :
    ¬ (1 % 4 = 0 ∧ chars "@" <+: chars "@a/b") ∧ fixLine 1 (chars "@a/b") = chars "@a/b" := by
  have h : ¬ (1 % 4 = 0 ∧ chars "@" <+: chars "@a/b") := by
    intro hc
    exact absurd hc.1 (by decide)
  exact ⟨h, (fix_headers_linewise [] 1 (chars "@a/b")).2.2.1 h⟩

/-! ### Idempotence of the rewrite -/

theorem map_noSlash_id (l : Line) (h : l.all (fun c => !(c == '/')) = true) :
    l.map slashToSpace = l := by
  induction l with
  | nil => rfl
  | cons c cs ih =>
    rw [List.all_cons, Bool.and_eq_true] at h
    have hc : ¬ c = '/' := by
      intro he
      subst he
      exact absurd h.1 (by decide)
    simp only [List.map_cons, ih h.2]
    simp [slashToSpace, hc]

theorem map_slashToSpace_noSlash (l : Line) :
    (l.map slashToSpace).all (fun c => !(c == '/')) = true := by
  rw [List.all_map]
  apply List.all_eq_true.mpr
  intro c _
  by_cases h : c = '/' <;> simp [Function.comp, slashToSpace, h]

theorem fixLine_idem (i : Nat) (l : Line) : fixLine i (fixLine i l) = fixLine i l := by
  unfold fixLine
  by_cases h : (i % 4 == 0 && (chars "@").isPrefixOf l) = true
  · rw [if_pos h, replaceSlash_eq_map]
    have h2 : (i % 4 == 0 && (chars "@").isPrefixOf (l.map slashToSpace)) = true := by
      rw [headChar_map]
      exact h
    rw [if_pos h2, replaceSlash_eq_map, List.map_map]
    apply List.map_congr_left
    intro c _
    exact slashToSpace_idem c
  · rw [if_neg h, if_neg h]

theorem headerSlashFreeFrom_fix (ls : List Line) :
    ∀ j, headerSlashFreeFrom j (fixLinesFrom j ls) = true := by
  induction ls with
  | nil => intro j; rfl
  | cons l rest ih =>
    intro j
    simp only [fixLinesFrom, headerSlashFreeFrom, Bool.and_eq_true]
    refine ⟨?_, ih (j + 1)⟩
    unfold fixLine
    by_cases h : (j % 4 == 0 && (chars "@").isPrefixOf l) = true
    · rw [if_pos h, replaceSlash_eq_map]
      rw [Bool.or_eq_true]
      exact Or.inr (map_slashToSpace_noSlash l)
    · have hb : (j % 4 == 0 && (chars "@").isPrefixOf l) = false := by
        cases hb2 : (j % 4 == 0 && (chars "@").isPrefixOf l)
        · rfl
        · exact absurd hb2 h
      rw [if_neg h, hb]
      rfl

theorem fixLinesFrom_slashFree_id (ls : List Line) :
    ∀ j, headerSlashFreeFrom j ls = true → fixLinesFrom j ls = ls := by
  induction ls with
  | nil => intro j _; rfl
  | cons l rest ih =>
    intro j h
    simp only [headerSlashFreeFrom, Bool.and_eq_true, Bool.or_eq_true] at h
    obtain ⟨hl, hrest⟩ := h
    simp only [fixLinesFrom, ih (j + 1) hrest]
    unfold fixLine
    rcases hl with hl | hl
    · rw [Bool.not_eq_true'] at hl
      rw [if_neg (by simp [hl])]
    · by_cases hc : (j % 4 == 0 && (chars "@").isPrefixOf l) = true
      · rw [if_pos hc, replaceSlash_eq_map, map_noSlash_id l hl]
      · rw [if_neg hc]

/-- C7: on a file whose header lines are already slash-free, which is the
state one application produces, the rewrite leaves every line unchanged; the
rewrite is idempotent, and its output is always header-slash-free. -/
theorem rewrite_idempotent (ls : List Line) (h : headerSlashFreeFrom 0 ls = true) :
    fixLines ls = ls
    ∧ (∀ ms, fixLines (fixLines ms) = fixLines ms)
    ∧ (∀ ms, headerSlashFreeFrom 0 (fixLines ms) = true) := by
  refine ⟨fixLinesFrom_slashFree_id ls 0 h, ?_, fun ms => headerSlashFreeFrom_fix ms 0⟩
  intro ms
  exact fixLinesFrom_slashFree_id (fixLines ms) 0 (headerSlashFreeFrom_fix ms 0)

theorem rewrite_idempotent_witness :
    headerSlashFreeFrom 0 exNormalized = true ∧ fixLines exNormalized = exNormalized :=
  ⟨by decide, (rewrite_idempotent exNormalized (by decide)).1⟩

/-! ### Replace-all versus replace-first, and the split prefix -/

theorem pyReplace_ne_self (p : Char) (ps rep : List Char)
    (hlen : rep.length = ps.length + 1) (hne : rep ≠ p :: ps) :
    ∀ n s, s.length ≤ n → 1 ≤ countOcc p ps s → pyReplace p ps rep s ≠ s := by
  intro n
  induction n with
  | zero =>
    intro s hs hc
    have hnil : s = [] := List.length_eq_zero.mp (Nat.le_zero.mp hs)
    subst hnil
    exact absurd hc (by simp [countOcc, countOccF])
  | succ n ih =>
    intro s hs hc heq
    cases s with
    | nil => exact absurd hc (by simp [countOcc, countOccF])
    | cons c cs =>
      rw [pyReplace_cons] at heq
      by_cases h : (p :: ps).isPrefixOf (c :: cs)
      · rw [if_pos h] at heq
        obtain ⟨t, ht⟩ := List.isPrefixOf_iff_prefix.mp h
        apply hne
        have h1 : (c :: cs).take rep.length = rep := by
          rw [← heq]
          exact List.take_left rep _
        have h2 : (c :: cs).take rep.length = p :: ps := by
          rw [← ht, hlen]
          exact List.take_left (p :: ps) t
        exact h1.symm.trans h2
      · rw [if_neg h] at heq
        injection heq with hhead heq2
        have hcc : countOcc p ps (c :: cs) = countOcc p ps cs := by
          rw [countOcc_cons, if_neg h]
        rw [hcc] at hc
        exact ih cs (by simp only [List.length_cons] at hs; omega) hc heq2

theorem pyReplace_ne_replaceOne (p : Char) (ps rep : List Char)
    (hlen : rep.length = ps.length + 1) (hne : rep ≠ p :: ps) :
    ∀ n s, s.length ≤ n → 2 ≤ countOcc p ps s →
      pyReplace p ps rep s ≠ replaceOneOcc p ps rep s := by
  intro n
  induction n with
  | zero =>
    intro s hs hc
    have hnil : s = [] := List.length_eq_zero.mp (Nat.le_zero.mp hs)
    subst hnil
    exact absurd hc (by simp [countOcc, countOccF])
  | succ n ih =>
    intro s hs hc heq
    cases s with
    | nil => exact absurd hc (by simp [countOcc, countOccF])
    | cons c cs =>
      rw [pyReplace_cons] at heq
      unfold replaceOneOcc at heq
      by_cases h : (p :: ps).isPrefixOf (c :: cs)
      · rw [if_pos h, if_pos h] at heq
        have heq2 := (List.append_right_inj rep).mp heq
        have hcc : countOcc p ps (c :: cs) = countOcc p ps (cs.drop ps.length) + 1 := by
          rw [countOcc_cons, if_pos h]
        rw [hcc] at hc
        exact pyReplace_ne_self p ps rep hlen hne n (cs.drop ps.length)
          (by simp only [List.length_drop, List.length_cons] at hs ⊢; omega)
          (by omega) heq2
      · rw [if_neg h, if_neg h] at heq
        injection heq with hhead heq2
        have hcc : countOcc p ps (c :: cs) = countOcc p ps cs := by
          rw [countOcc_cons, if_neg h]
        rw [hcc] at hc
        exact ih cs (by simp only [List.length_cons] at hs; omega) hc heq2

theorem splitHead_isPre (p : Char) (ps : List Char) :
    ∀ s, splitHead p ps s <+: s := by
  intro s
  induction s with
  | nil => exact List.prefix_refl []
  | cons c cs ih =>
    unfold splitHead
    by_cases h : (p :: ps).isPrefixOf (c :: cs)
    · rw [if_pos h]
      exact List.nil_prefix
    · rw [if_neg h]
      exact (List.cons_prefix_cons).mpr ⟨rfl, ih⟩

theorem splitHead_min (p : Char) (ps : List Char) :
    ∀ s i, i < (splitHead p ps s).length → ¬ (p :: ps) <+: s.drop i := by
  intro s
  induction s with
  | nil => intro i hi; simp [splitHead] at hi
  | cons c cs ih =>
    intro i hi
    unfold splitHead at hi
    by_cases h : (p :: ps).isPrefixOf (c :: cs)
    · rw [if_pos h] at hi
      simp at hi
    · rw [if_neg h] at hi
      cases i with
      | zero =>
        rw [List.drop_zero]
        intro hp
        exact h (List.isPrefixOf_iff_prefix.mpr hp)
      | succ i =>
        rw [List.drop_succ_cons]
        apply ih
        simp only [List.length_cons] at hi
        omega

theorem splitHead_first (p : Char) (ps : List Char) :
    ∀ s : List Char, (∃ j, (p :: ps) <+: s.drop j) →
      (p :: ps) <+: s.drop (splitHead p ps s).length := by
  intro s
  induction s with
  | nil =>
    rintro ⟨j, hj⟩
    rw [List.drop_nil] at hj
    exact absurd (List.prefix_nil.mp hj) (by simp)
  | cons c cs ih =>
    rintro ⟨j, hj⟩
    unfold splitHead
    by_cases h : (p :: ps).isPrefixOf (c :: cs)
    · rw [if_pos h]
      exact List.isPrefixOf_iff_prefix.mp h
    · rw [if_neg h]
      simp only [List.length_cons, List.drop_succ_cons]
      apply ih
      cases j with
      | zero =>
        rw [List.drop_zero] at hj
        exact absurd (List.isPrefixOf_iff_prefix.mpr hj) h
      | succ j =>
        rw [List.drop_succ_cons] at hj
        exact ⟨j, hj⟩

/-- C10: the derived mate-2 name substitutes every occurrence of the mate-1
marker, so on a name with two or more marker occurrences it differs from the
single-substitution name; the sample label is the part of the mate-1
basename that precedes the first marker occurrence: it is a prefix of the
basename, no occurrence starts inside it, and when the basename contains the
marker at all, an occurrence starts right after it. -/
theorem mate_derivation (s : Name) (h : 2 ≤ countOcc '_' (chars "R1") s) :
    r2Name s ≠ replaceOneOcc '_' (chars "R1") (chars "_R2") s
    ∧ (∀ t, sampleLabel t = splitHead '_' (chars "R1") (basename t))
    ∧ (∀ t : Name, splitHead '_' (chars "R1") t <+: t)
    ∧ (∀ (t : Name) (i : Nat), i < (splitHead '_' (chars "R1") t).length →
        ¬ chars "_R1" <+: t.drop i)
    ∧ (∀ t : Name, (∃ j, chars "_R1" <+: t.drop j) →
        chars "_R1" <+: t.drop (splitHead '_' (chars "R1") t).length) := by
  refine ⟨?_, fun t => rfl, splitHead_isPre '_' (chars "R1"),
    splitHead_min '_' (chars "R1"), splitHead_first '_' (chars "R1")⟩
  exact pyReplace_ne_replaceOne '_' (chars "R1") (chars "_R2") (by decide) (by decide)
    s.length s (Nat.le_refl _) h

theorem mate_derivation_witness :
    2 ≤ countOcc '_' (chars "R1") exDouble
    ∧ r2Name exDouble ≠ replaceOneOcc '_' (chars "R1") (chars "_R2") exDouble := by
  have h2 : 2 ≤ countOcc '_' (chars "R1") exDouble := by decide
  exact ⟨h2, (mate_derivation exDouble h2).1⟩

/-! ### The rewrite is not crash-safe, and the temporary file is always removed -/

/-- C1: the recompression of `fix_headers_for_file` reopens the original gz
path for writing, which truncates it before the rewritten content is in
place.  Hence it is false that every intermediate state of the operation
holds either the original or the final content at the original path: the
state reached right after the reopen holds an empty file there, so an
interruption at that point loses the original data. -/
theorem fix_headers_truncates_before_rewrite :
    ¬ (∀ s ∈ fixHeadersStates exRecord,
        s.orig = some exRecord ∨ s.orig = some (fixLines exRecord)) := by
  intro h
  have hmem : (⟨some [], some (fixLines exRecord)⟩ : FixFS) ∈ fixHeadersStates exRecord := by
    decide
  have := h _ hmem
  revert this
  decide

/-- C8: whatever fault the body of `fix_headers_for_file` hits, the finally
block leaves no temporary file behind; an exception propagates exactly when
a fault occurred, and the enclosing job converts a header-fix exception into
a failed result carrying the header-error message, for either mate. -/
theorem temp_removed_on_all_paths (content : List Line) (fault : Option FixFault)
    (r1 r2 e : Name) (f2 : FixOutcome) :
    (fixHeadersRun content fault).1.temp = none
    ∧ (fixHeadersRun content fault).2 = fault.isSome
    ∧ (runCutadaptForPair r1 r2 ⟨ToolOutcome.ok, FixOutcome.err e, f2⟩).2.1 = false
    ∧ (runCutadaptForPair r1 r2 ⟨ToolOutcome.ok, FixOutcome.err e, f2⟩).2.2
        = some (erroHeadersMsg e)
    ∧ (runCutadaptForPair r1 r2 ⟨ToolOutcome.ok, FixOutcome.ok, FixOutcome.err e⟩).2.1
        = false := by
  refine ⟨rfl, ?_, rfl, rfl, rfl⟩
  cases fault with
  | none => rfl
  | some f => cases f <;> rfl

end MGITrimmer
